import Mathlib

/-!
Verification of the white-noise spectrum plotter core against its source:
the text-to-dataset validation pipeline (zod schemas) and the spectral
indexing utilities (`fftfreq`, `fftshift` in src/lib/fft-utils.ts).
Strings are modelled as lists of characters and JavaScript numbers as
rationals; fallible zod transforms are modelled as `Except` values carrying
the list of issues they add before returning `z.NEVER`.
-/

namespace Spectrum

/-- Embedding of `fftfreq` from src/lib/fft-utils.ts: the loop
`freqs[i] = (i < n / 2 ? i : i - n) * factor` over `i = 0 .. n-1`, with
`factor = 1.0 / (n * (1 / frequency))`. JavaScript division `n / 2` is real
(non-truncating) division, modelled in `ℚ`. -/
def fftfreq (n : ℕ) (frequency : ℚ) : List ℚ :=
  (List.range n).map (fun (i : ℕ) =>
    (if (i : ℚ) < (n : ℚ) / 2 then (i : ℚ) else (i : ℚ) - (n : ℚ)) *
      (1 / ((n : ℚ) * (1 / frequency))))

/-- Embedding of the exported `fftshift` from src/lib/fft-utils.ts:
`half = Math.ceil(n / 2)` and `[...arr.slice(half), ...arr.slice(0, half)]`.
For a natural length `n`, `Math.ceil(n / 2)` equals `(n + 1) / 2` in integer
division. -/
def fftshift {α : Type} (arr : List α) : List α :=
  arr.drop ((arr.length + 1) / 2) ++ arr.take ((arr.length + 1) / 2)

/-- The factor `1 / (n * (1 / frequency))` computed by `fftfreq` equals
`frequency / n` as a rational (also in the degenerate cases `n = 0` and
`frequency = 0`, where both sides are `0`). -/
theorem fftfreq_factor_eq (n : ℕ) (r : ℚ) : 1 / ((n : ℚ) * (1 / r)) = r / n := by
  rcases eq_or_ne r 0 with h | h
  · simp [h]
  · rcases eq_or_ne (n : ℚ) 0 with hn | hn
    · simp [hn]
    · field_simp

/-- C1, counterexample: on the length-3 sequence `[0, 1, 2]` the exported
`fftshift` differs from the `floor(n/2)` split claimed by the spec
(`drop (3/2) ++ take (3/2)`, i.e. `[1, 2, 0]`); the code produces `[2, 0, 1]`. -/
theorem fftshift_floor_split_counterexample :
    fftshift ([0, 1, 2] : List ℚ) ≠
      List.drop (3 / 2) ([0, 1, 2] : List ℚ) ++
        List.take (3 / 2) ([0, 1, 2] : List ℚ) := by
  decide

/-- C1, amended: for every sequence `s` of length `n` (numeric values or
pairs — the function is polymorphic), the exported `fftshift` equals the
concatenation of `s[⌈n/2⌉ .. n)` followed by `s[0 .. ⌈n/2⌉)`, i.e. its split
point is `ceil(n/2) = (n+1)/2`; for even `n` this coincides with the
spec's `floor(n/2)` split. -/
theorem fftshift_ceil_split {α : Type} (s : List α) :
    fftshift s = s.drop ((s.length + 1) / 2) ++ s.take ((s.length + 1) / 2) ∧
      (s.length % 2 = 0 →
        fftshift s = s.drop (s.length / 2) ++ s.take (s.length / 2)) := by
  refine ⟨rfl, fun h => ?_⟩
  have h2 : (s.length + 1) / 2 = s.length / 2 := by omega
  rw [fftshift, h2]

/-- Witness for the amended C1 at the even-length sequence `[10, 20, 30, 40]`. -/
theorem fftshift_ceil_split_witness :
    fftshift ([10, 20, 30, 40] : List ℚ) =
      List.drop (4 / 2) ([10, 20, 30, 40] : List ℚ) ++
        List.take (4 / 2) ([10, 20, 30, 40] : List ℚ) :=
  (fftshift_ceil_split ([10, 20, 30, 40] : List ℚ)).2 (by decide)

/-- C2: `fftfreq 5 100` is exactly `[0, 20, 40, -40, -20]`, and the exported
`fftshift` applied to that result is exactly `[-40, -20, 0, 20, 40]`. -/
theorem fftfreq_reference_vectors :
    fftfreq 5 100 = [0, 20, 40, -40, -20] ∧
      fftshift (fftfreq 5 100) = [-40, -20, 0, 20, 40] := by
  have hr : List.range 5 = [0, 1, 2, 3, 4] := by decide
  have h1 : fftfreq 5 100 = [0, 20, 40, -40, -20] := by
    rw [fftfreq, hr]
    norm_num
  refine ⟨h1, ?_⟩
  rw [h1]
  norm_num [fftshift]

/-- Closed form of `fftfreq` with the factor rewritten to `frequency / n`. -/
theorem fftfreq_eq_map (n : ℕ) (r : ℚ) :
    fftfreq n r =
      (List.range n).map (fun (i : ℕ) =>
        (if (i : ℚ) < (n : ℚ) / 2 then (i : ℚ) else (i : ℚ) - (n : ℚ)) * (r / n)) := by
  unfold fftfreq
  simp only [fftfreq_factor_eq]

/-- C3: for every `n ≥ 1`, every `sampleRate`, and every `i < n`, the i-th
element of `fftfreq n sampleRate` equals `(i if i < n/2 else i - n)`
multiplied by `sampleRate / n`, where `i < n/2` compares `i` against the
exact rational half of `n`. -/
theorem fftfreq_bin_value (n i : ℕ) (sampleRate : ℚ) (hn : 1 ≤ n) (hi : i < n) :
    (fftfreq n sampleRate).getD i 0 =
      (if (i : ℚ) < (n : ℚ) / 2 then (i : ℚ) else (i : ℚ) - (n : ℚ)) *
        (sampleRate / n) := by
  have hlen : i <
      ((List.range n).map (fun j : ℕ =>
        (if (j : ℚ) < (n : ℚ) / 2 then (j : ℚ) else (j : ℚ) - (n : ℚ)) *
          (sampleRate / n))).length := by
    rw [List.length_map, List.length_range]
    exact hi
  rw [fftfreq_eq_map, List.getD_eq_getElem _ _ hlen, List.getElem_map,
    List.getElem_range]

/-- Witness for C3 at `n = 5`, `i = 3`, `sampleRate = 100` (a negative bin). -/
theorem fftfreq_bin_value_witness :
    (fftfreq 5 100).getD 3 0 =
      (if (3 : ℚ) < (5 : ℚ) / 2 then (3 : ℚ) else (3 : ℚ) - (5 : ℚ)) *
        (100 / 5) := by
  have h := fftfreq_bin_value 5 3 100 (by norm_num) (by norm_num)
  push_cast at h
  exact h

/-- Mapping a function with non-decreasing consecutive values over a block of
consecutive integers yields a non-decreasing list. -/
theorem chain_le_map_range' (g : ℕ → ℚ) (hg : ∀ k, g k ≤ g (k + 1)) :
    ∀ (m s : ℕ), List.Chain' (· ≤ ·) ((List.range' s m).map g)
  | 0, s => by simp
  | m + 1, s => by
    rw [List.range'_succ, List.map_cons, List.chain'_cons']
    refine ⟨?_, chain_le_map_range' g hg m (s + 1)⟩
    intro y hy
    cases m with
    | zero => simp at hy
    | succ m' =>
      rw [List.range'_succ, List.map_cons, List.head?_cons, Option.mem_def,
        Option.some.injEq] at hy
      rw [← hy]
      exact hg s

/-- C7, counterexample: for `n = 2` and `sampleRate = -1` the shifted
frequency sequence is `[1/2, 0]`, which is not non-decreasing; the claim
fails for negative sample rates. -/
theorem fftshift_fftfreq_monotone_counterexample :
    ¬ List.Chain' (· ≤ ·) (fftshift (fftfreq 2 (-1))) := by
  have h2 : List.range 2 = [0, 1] := by decide
  have h1 : fftfreq 2 (-1) = [0, 1 / 2] := by
    rw [fftfreq, h2]
    norm_num
  have h3 : fftshift ([0, 1 / 2] : List ℚ) = [1 / 2, 0] := rfl
  rw [h1, h3, List.chain'_pair]
  norm_num

/-- C7, amended: for every `n ≥ 1` and every `sampleRate ≥ 0`, the sequence
`fftshift (fftfreq n sampleRate)` is non-decreasing from its first element to
its last. (For negative sample rates the sequence is reversed in order, see
the counterexample.) -/
theorem fftshift_fftfreq_monotone (n : ℕ) (sampleRate : ℚ)
    (hn : 1 ≤ n) (hr : 0 ≤ sampleRate) :
    List.Chain' (· ≤ ·) (fftshift (fftfreq n sampleRate)) := by
  have hnq : (0 : ℚ) < (n : ℚ) := by
    have : (1 : ℚ) ≤ (n : ℚ) := by exact_mod_cast hn
    linarith
  set c : ℚ := sampleRate / n with hc
  have hc0 : 0 ≤ c := div_nonneg hr (le_of_lt hnq)
  set h : ℕ := (n + 1) / 2 with hh
  have hhn : h ≤ n := by omega
  have hsplit : List.range n = List.range' 0 h ++ List.range' h (n - h) := by
    have e := List.range'_append_1 0 h (n - h)
    rw [Nat.zero_add] at e
    have e2 : n - h + h = n := by omega
    rw [List.range_eq_range', e, e2]
  set f : ℕ → ℚ := fun (i : ℕ) =>
    (if (i : ℚ) < (n : ℚ) / 2 then (i : ℚ) else (i : ℚ) - (n : ℚ)) * c with hf
  have hmain : fftfreq n sampleRate = (List.range n).map f := fftfreq_eq_map n sampleRate
  have hlenA : ((List.range' 0 h).map f).length = h := by
    rw [List.length_map, List.length_range']
  have hshift : fftshift (fftfreq n sampleRate) =
      (List.range' h (n - h)).map f ++ (List.range' 0 h).map f := by
    rw [fftshift, hmain, hsplit, List.map_append]
    have hlen : ((List.range' 0 h).map f ++ (List.range' h (n - h)).map f).length = n := by
      rw [List.length_append, List.length_map, List.length_map,
        List.length_range', List.length_range']
      omega
    rw [hlen, ← hh, List.drop_left' hlenA, List.take_left' hlenA]
  rw [hshift]
  have hB : (List.range' h (n - h)).map f =
      (List.range' h (n - h)).map (fun (i : ℕ) => ((i : ℚ) - (n : ℚ)) * c) := by
    apply List.map_congr_left
    intro a ha
    rw [List.mem_range'_1] at ha
    have h2a : n ≤ 2 * a := by omega
    have hcast : (n : ℚ) ≤ 2 * (a : ℚ) := by exact_mod_cast h2a
    have hnot : ¬ ((a : ℚ) < (n : ℚ) / 2) := by
      rw [not_lt]
      linarith
    rw [hf]
    simp only [if_neg hnot]
  have hA : (List.range' 0 h).map f =
      (List.range' 0 h).map (fun (i : ℕ) => (i : ℚ) * c) := by
    apply List.map_congr_left
    intro a ha
    rw [List.mem_range'_1] at ha
    have h2a : 2 * a < n := by omega
    have hcast : 2 * (a : ℚ) < (n : ℚ) := by exact_mod_cast h2a
    have hlt : (a : ℚ) < (n : ℚ) / 2 := by linarith
    rw [hf]
    simp only [if_pos hlt]
  rw [hB, hA]
  apply List.Chain'.append
  · apply chain_le_map_range'
    intro k
    have : ((k : ℚ) - (n : ℚ)) ≤ ((k : ℚ) + 1 - (n : ℚ)) := by linarith
    have := mul_le_mul_of_nonneg_right this hc0
    push_cast
    linarith
  · apply chain_le_map_range'
    intro k
    have : ((k : ℚ)) ≤ ((k : ℚ) + 1) := by linarith
    have := mul_le_mul_of_nonneg_right this hc0
    push_cast
    linarith
  · intro x hx y hy
    rw [List.getLast?_map, List.getLast?_range'] at hx
    rw [List.head?_map, List.head?_range'] at hy
    by_cases hnh : n - h = 0
    · rw [if_pos hnh] at hx
      simp at hx
    · rw [if_neg hnh] at hx
      have hh0 : ¬ (h = 0) := by omega
      rw [if_neg hh0] at hy
      simp only [Option.map_some', Option.mem_def, Option.some.injEq] at hx hy
      rw [← hx, ← hy]
      have he : h + (n - h) - 1 = n - 1 := by omega
      rw [he]
      have hcast : ((n - 1 : ℕ) : ℚ) = (n : ℚ) - 1 := by
        have : (1 : ℕ) ≤ n := hn
        push_cast [this]
        ring
      rw [hcast]
      have : ((n : ℚ) - 1 - (n : ℚ)) * c = -c := by ring
      rw [this]
      simp only [Nat.cast_zero, zero_mul]
      linarith

/-- Witness for the amended C7 at `n = 5`, `sampleRate = 100`. -/
theorem fftshift_fftfreq_monotone_witness :
    List.Chain' (· ≤ ·) (fftshift (fftfreq 5 100)) :=
  fftshift_fftfreq_monotone 5 100 (by norm_num) (by norm_num)

/-- Whitespace characters recognised by JavaScript `trim` and `\s` (the ASCII
subset: space, tab, newline, carriage return, vertical tab, form feed). -/
def isWs (c : Char) : Bool :=
  c = ' ' || c = '\t' || c = '\n' || c = '\r' || c.toNat = 11 || c.toNat = 12

/-- JavaScript `String.prototype.trim`: drop whitespace from both ends. -/
def trimChars (s : List Char) : List Char :=
  ((s.dropWhile isWs).reverse.dropWhile isWs).reverse

/-- JavaScript `content.split("\n")`: split at every newline, keeping empty
segments; the empty string yields one empty segment. -/
def splitOnNl : List Char → List (List Char)
  | [] => [[]]
  | c :: rest =>
    let tail := splitOnNl rest
    if c = '\n' then [] :: tail
    else (c :: tail.headD []) :: tail.tail

/-- Maximal runs of non-whitespace characters, accumulating the current run in
reverse in `cur` (the behaviour of `split(/\s+/)` on a trimmed string). -/
def wordsAux (cur : List Char) : List Char → List (List Char)
  | [] => if cur.isEmpty then [] else [cur.reverse]
  | c :: rest =>
    if isWs c then
      if cur.isEmpty then wordsAux [] rest
      else cur.reverse :: wordsAux [] rest
    else wordsAux (c :: cur) rest

/-- JavaScript `line.trim().split(/\s+/)`: the whitespace-separated tokens of
the trimmed line; a line that trims to the empty string yields the single
token `""`. -/
def lineTokens (line : List Char) : List (List Char) :=
  let t := trimChars line
  if t.isEmpty then [[]] else wordsAux [] t

/-- Numeric value of a list of decimal digit characters. -/
def digitsVal (l : List Char) : ℕ :=
  l.foldl (fun acc c => 10 * acc + (c.toNat - '0'.toNat)) 0

/-- Models the JavaScript `Number()` conversion on whitespace-free tokens,
restricted to optionally signed decimal literals: `Number("") = 0`; forms
such as `"1"`, `"-2.5"`, `"+.5"` and `"3."` parse; every other token —
including the exponent, hex and `"Infinity"` forms, which no input of this
repository uses — yields `none`, standing for a value on which the source's
`Number.isFinite` test is false. -/
def jsNumber (s : List Char) : Option ℚ :=
  match s with
  | [] => some 0
  | _ =>
    let neg : Bool := match s with | '-' :: _ => true | _ => false
    let rest : List Char := match s with | '-' :: r => r | '+' :: r => r | _ => s
    let signed : ℚ → ℚ := fun v => if neg then -v else v
    let ip := rest.takeWhile Char.isDigit
    match rest.dropWhile Char.isDigit with
    | [] => if ip.isEmpty then none else some (signed (digitsVal ip : ℚ))
    | '.' :: fp =>
      if fp.all Char.isDigit && !(ip.isEmpty && fp.isEmpty) then
        some (signed ((digitsVal ip : ℚ) + (digitsVal fp : ℚ) / (10 ^ fp.length)))
      else none
    | _ => none

/-- The issues the pipeline's transforms can add (`ctx.addIssue` calls in
src/schemas.ts), carrying the numeric context of each message. `crash` models
the `rows[0]!` dereference of an empty row list in `checkUniform`, a runtime
TypeError rather than an issue. -/
inductive ParseIssue where
  | emptyInput
  | noDataRows
  | noLines
  | headerOnly
  | invalidRow (rowIndex found : ℕ)
  | noValidRows
  | nonUniform (rowIndex found expected : ℕ)
  | headerMismatch (headerLen numCols : ℕ)
  | oddColumns
  | invalidOutput
  | crash
  deriving DecidableEq

/-- The final dataset value produced by `dataSchema`. -/
structure Data where
  header : Option (List (List Char))
  rows : List (List (ℚ × ℚ))
  numPairs : ℕ
  numCols : ℕ
  deriving DecidableEq

/-- `trimAndSplit` from src/schemas.ts: trim the content (failing when the
trimmed content is empty), split on newlines and keep the lines that are
non-empty after trimming (failing when none remain). -/
def trimAndSplit (content : List Char) :
    Except (List ParseIssue) (List (List Char)) :=
  let trimmed := trimChars content
  if trimmed.isEmpty then .error [.emptyInput]
  else
    let lines := (splitOnNl trimmed).filter (fun l => !(trimChars l).isEmpty)
    if lines.isEmpty then .error [.noDataRows] else .ok lines

/-- `detectHeader` from src/schemas.ts: the first line is data iff all of its
tokens convert to finite numbers and the token count is even and at least 2;
otherwise it is a header and must be followed by at least one data line. -/
def detectHeader (lines : List (List Char)) :
    Except (List ParseIssue) (Option (List (List Char)) × List (List Char)) :=
  match lines with
  | [] => .error [.noLines]
  | first :: _ =>
    let parts := lineTokens first
    if (parts.map jsNumber).all Option.isSome ∧
        2 ≤ parts.length ∧ parts.length % 2 = 0 then
      .ok (none, lines)
    else
      if lines.tail.isEmpty then .error [.headerOnly]
      else .ok (some parts, lines.tail)

/-- The loop of `parseDataRows` from src/schemas.ts over the data lines, with
1-based row numbers continuing from `i`: the first invalid row adds one issue
and aborts the whole transform (`return z.NEVER` inside the loop). -/
def parseDataRowsAux : ℕ → List (List Char) → Except (List ParseIssue) (List (List ℚ))
  | _, [] => .ok []
  | i, line :: rest =>
    let parts := lineTokens line
    let nums := parts.map jsNumber
    if nums.all Option.isSome ∧ 2 ≤ parts.length ∧ parts.length % 2 = 0 then
      match parseDataRowsAux (i + 1) rest with
      | .error e => .error e
      | .ok rs => .ok (nums.reduceOption :: rs)
    else .error [.invalidRow (i + 1) parts.length]

/-- `parseDataRows` from src/schemas.ts: parse every data line (aborting at
the first invalid one), then require at least one parsed row. -/
def parseDataRows (header : Option (List (List Char)))
    (dataLines : List (List Char)) :
    Except (List ParseIssue) (Option (List (List Char)) × List (List ℚ)) :=
  match parseDataRowsAux 0 dataLines with
  | .error e => .error e
  | .ok rows =>
    if rows.isEmpty then .error [.noValidRows] else .ok (header, rows)

/-- Scan for the first row whose length differs from `expected`, reporting
1-based row numbers continuing from `rowNo`. -/
def findNonUniform (expected : ℕ) : ℕ → List (List ℚ) → Option (ℕ × ℕ)
  | _, [] => none
  | rowNo, r :: rs =>
    if r.length ≠ expected then some (rowNo, r.length)
    else findNonUniform expected (rowNo + 1) rs

/-- `checkUniform` from src/schemas.ts: every row must have the first row's
length; fails fast at the first mismatch (row numbers start at 2 because row
1 sets the expectation). -/
def checkUniform (header : Option (List (List Char))) (rows : List (List ℚ)) :
    Except (List ParseIssue) (Option (List (List Char)) × List (List ℚ) × ℕ) :=
  match rows with
  | [] => .error [.crash]
  | r0 :: rest =>
    match findNonUniform r0.length 2 rest with
    | some (rowNo, found) => .error [.nonUniform rowNo found r0.length]
    | none => .ok (header, r0 :: rest, r0.length)

/-- The pairing loop of `splitIntoPairs`: consecutive 2-tuples
`(row[0], row[1]), (row[2], row[3]), …` (a trailing odd element, unreachable
through the pipeline, is dropped). -/
def pairUp : List ℚ → List (ℚ × ℚ)
  | a :: b :: rest => (a, b) :: pairUp rest
  | _ => []

/-- `splitIntoPairs` from src/schemas.ts: validates the header length against
`numCols` (when a header is present), requires an even `numCols`, and splits
every row into consecutive (real, imaginary) pairs, with
`numPairs = numCols / 2`. -/
def splitIntoPairs (header : Option (List (List Char))) (data : List (List ℚ))
    (numCols : ℕ) : Except (List ParseIssue) Data :=
  match header with
  | some hd =>
    if hd.length ≠ numCols then .error [.headerMismatch hd.length numCols]
    else if numCols % 2 ≠ 0 then .error [.oddColumns]
    else .ok ⟨some hd, data.map pairUp, numCols / 2, numCols⟩
  | none =>
    if numCols % 2 ≠ 0 then .error [.oddColumns]
    else .ok ⟨none, data.map pairUp, numCols / 2, numCols⟩

/-- `outputSchema` from src/schemas.ts: the final zod shape check; every row
must be a nonempty array of pairs of finite numbers (finiteness is inherent
in the rational embedding). -/
def outputSchema (d : Data) : Except (List ParseIssue) Data :=
  if d.rows.all (fun r => !r.isEmpty) then .ok d else .error [.invalidOutput]

/-- `dataSchema` from src/schemas.ts: the full parse pipeline; a failing stage
short-circuits the chain with its issues (zod `pipe` semantics). -/
def dataSchema (content : List Char) : Except (List ParseIssue) Data :=
  match trimAndSplit content with
  | .error e => .error e
  | .ok lines =>
  match detectHeader lines with
  | .error e => .error e
  | .ok hd =>
  match parseDataRows hd.1 hd.2 with
  | .error e => .error e
  | .ok pr =>
  match checkUniform pr.1 pr.2 with
  | .error e => .error e
  | .ok cu =>
  match splitIntoPairs cu.1 cu.2.1 cu.2.2 with
  | .error e => .error e
  | .ok d => outputSchema d

/-- The loop of the legacy `parseRows` (the schema variant without header
support): issues accumulate across all rows while valid rows keep only their
finite numbers; returns the issue list and the valid rows. -/
def parseRowsAux : ℕ → List (List Char) → List ParseIssue × List (List ℚ)
  | _, [] => ([], [])
  | i, line :: rest =>
    let fin := (lineTokens line).filterMap jsNumber
    let rec' := parseRowsAux (i + 1) rest
    if 2 ≤ fin.length ∧ fin.length % 2 = 0 then (rec'.1, fin :: rec'.2)
    else (.invalidRow (i + 1) fin.length :: rec'.1, rec'.2)

/-- The legacy `parseRows`: every line is checked, then the combined issue
list is reported if any row was invalid. -/
def parseRows (lines : List (List Char)) :
    Except (List ParseIssue) (List (List ℚ)) :=
  let p := parseRowsAux 0 lines
  if !p.1.isEmpty then .error p.1
  else if p.2.isEmpty then .error [.noDataRows] else .ok p.2

/-- The issue list of a failed parse (empty for successes). -/
def issuesOf {α : Type} : Except (List ParseIssue) α → List ParseIssue
  | .error e => e
  | .ok _ => []

/-- Reducing a list of options that are all `some` preserves the length. -/
theorem reduceOption_length_all_isSome {α : Type} :
    ∀ (l : List (Option α)), l.all Option.isSome → l.reduceOption.length = l.length := by
  intro l
  induction l with
  | nil => intro _; rfl
  | cons a as ih =>
    intro h
    rw [List.all_cons, Bool.and_eq_true] at h
    cases a with
    | none => simp at h
    | some x =>
      rw [List.reduceOption_cons_of_some, List.length_cons, List.length_cons,
        ih h.2]

/-- Every row kept by a successful `parseDataRowsAux` pass has an even length
of at least 2. -/
theorem parseDataRowsAux_shape :
    ∀ (ls : List (List Char)) (i : ℕ) (rows : List (List ℚ)),
      parseDataRowsAux i ls = .ok rows →
      ∀ r ∈ rows, 2 ≤ r.length ∧ r.length % 2 = 0 := by
  intro ls
  induction ls with
  | nil =>
    intro i rows h r hr
    simp only [parseDataRowsAux] at h
    cases h
    simp at hr
  | cons line rest ih =>
    intro i rows h r hr
    simp only [parseDataRowsAux] at h
    split at h
    · rename_i hcond
      split at h
      · cases h
      · rename_i rs hrs
        cases h
        rcases List.mem_cons.mp hr with rfl | hmem
        · have hlen : ((lineTokens line).map jsNumber).reduceOption.length =
              ((lineTokens line).map jsNumber).length :=
            reduceOption_length_all_isSome _ hcond.1
          rw [hlen, List.length_map]
          exact ⟨hcond.2.1, hcond.2.2⟩
        · exact ih (i + 1) rs hrs r hmem
    · cases h

/-- A successful `parseDataRows` returns the given header and a nonempty row
list produced by the row loop. -/
theorem parseDataRows_ok_inv (header : Option (List (List Char)))
    (dataLines : List (List Char))
    (pr : Option (List (List Char)) × List (List ℚ))
    (h : parseDataRows header dataLines = .ok pr) :
    pr.1 = header ∧ parseDataRowsAux 0 dataLines = .ok pr.2 ∧ pr.2 ≠ [] := by
  unfold parseDataRows at h
  split at h
  · cases h
  · rename_i rows hrows
    split at h
    · cases h
    · rename_i hne
      cases h
      refine ⟨rfl, hrows, ?_⟩
      simpa [List.isEmpty_iff] using hne

/-- When `findNonUniform` finds nothing, every row has the expected length. -/
theorem findNonUniform_none (expected : ℕ) :
    ∀ (rs : List (List ℚ)) (k : ℕ), findNonUniform expected k rs = none →
      ∀ r ∈ rs, r.length = expected := by
  intro rs
  induction rs with
  | nil => intro k _ r hr; simp at hr
  | cons r0 rest ih =>
    intro k h r hr
    simp only [findNonUniform] at h
    split at h
    · cases h
    · rename_i heq
      rcases List.mem_cons.mp hr with rfl | hmem
      · exact not_ne_iff.mp heq
      · exact ih (k + 1) h r hmem

/-- `findNonUniform` reports the first mismatching row. -/
theorem findNonUniform_first (expected : ℕ) :
    ∀ (rest : List (List ℚ)) (k j : ℕ), j < rest.length →
      (∀ m, m < j → (rest.getD m []).length = expected) →
      (rest.getD j []).length ≠ expected →
      findNonUniform expected k rest = some (k + j, (rest.getD j []).length) := by
  intro rest
  induction rest with
  | nil => intro k j hj; simp at hj
  | cons r rs ih =>
    intro k j hj hpre hmis
    cases j with
    | zero =>
      rw [List.getD_cons_zero] at hmis ⊢
      simp only [findNonUniform]
      rw [if_pos hmis, Nat.add_zero]
    | succ j' =>
      have hr0 : r.length = expected := by
        have := hpre 0 (Nat.succ_pos j')
        rwa [List.getD_cons_zero] at this
      rw [List.getD_cons_succ] at hmis ⊢
      simp only [findNonUniform]
      rw [if_neg (not_ne_iff.mpr hr0)]
      have hrec := ih (k + 1) j' (by simpa using hj)
        (fun m hm => by
          have := hpre (m + 1) (by omega)
          rwa [List.getD_cons_succ] at this)
        hmis
      rw [hrec]
      have harith : k + 1 + j' = k + (j' + 1) := by omega
      rw [harith]

/-- A successful `checkUniform` passes the header and rows through and
returns the first row's length, which every row matches. -/
theorem checkUniform_ok_inv (header : Option (List (List Char)))
    (rows : List (List ℚ))
    (cu : Option (List (List Char)) × List (List ℚ) × ℕ)
    (h : checkUniform header rows = .ok cu) :
    cu.1 = header ∧ cu.2.1 = rows ∧ rows ≠ [] ∧
      ∀ r ∈ rows, r.length = cu.2.2 := by
  cases rows with
  | nil =>
    simp only [checkUniform] at h
    exact (Except.noConfusion h)
  | cons r0 rest =>
    simp only [checkUniform] at h
    split at h
    · cases h
    · rename_i hf
      cases h
      refine ⟨rfl, rfl, by simp, ?_⟩
      intro r hr
      rcases List.mem_cons.mp hr with rfl | hmem
      · rfl
      · exact findNonUniform_none r0.length rest 2 hf r hmem

/-- The pairing loop halves the row length (rounding down). -/
theorem pairUp_length : ∀ (l : List ℚ), (pairUp l).length = l.length / 2
  | [] => by simp [pairUp]
  | [a] => by simp [pairUp]
  | a :: b :: rest => by
    simp only [pairUp, List.length_cons, pairUp_length rest]
    omega

/-- A successful `splitIntoPairs` pairs up the data, halves the column count,
and certifies the evenness and header-length side conditions. -/
theorem splitIntoPairs_ok_inv (header : Option (List (List Char)))
    (data : List (List ℚ)) (numCols : ℕ) (d : Data)
    (h : splitIntoPairs header data numCols = .ok d) :
    d.header = header ∧ d.rows = data.map pairUp ∧
      d.numPairs = numCols / 2 ∧ d.numCols = numCols ∧ numCols % 2 = 0 ∧
      ∀ hd, header = some hd → hd.length = numCols := by
  cases header with
  | none =>
    simp only [splitIntoPairs] at h
    split at h
    · cases h
    · rename_i hev
      cases h
      exact ⟨rfl, rfl, rfl, rfl, not_ne_iff.mp hev, by simp⟩
  | some hd =>
    simp only [splitIntoPairs] at h
    split at h
    · cases h
    · rename_i hlen
      split at h
      · cases h
      · rename_i hev
        cases h
        refine ⟨rfl, rfl, rfl, rfl, not_ne_iff.mp hev, ?_⟩
        intro hd' hh
        cases hh
        exact not_ne_iff.mp hlen

/-- `outputSchema` is the identity on the datasets it accepts. -/
theorem outputSchema_ok_inv (d d' : Data) (h : outputSchema d = .ok d') :
    d' = d := by
  unfold outputSchema at h
  split at h
  · cases h; rfl
  · cases h

/-- C4: the live row-parsing stage `parseDataRows` stops at the first invalid
row instead of scanning all data lines: on the data lines `"1 2"`, `"x y"`,
`"3 4 5"`, where rows 2 and 3 are both invalid, it reports only row 2, while
the legacy accumulate-then-fail `parseRows` reports both invalid rows as the
claim (and the spec's design notes) require. -/
theorem parseDataRows_fail_fast :
    parseDataRows none ["1 2".toList, "x y".toList, "3 4 5".toList] =
      .error [.invalidRow 2 2] ∧
    parseRows ["1 2".toList, "x y".toList, "3 4 5".toList] =
      .error [.invalidRow 2 0, .invalidRow 3 3] :=
  ⟨rfl, rfl⟩

/-- C5: for every non-empty list of lines, `detectHeader` classifies the
first line as data — header absent, all lines kept — iff every
whitespace-separated token of the first line parses to a finite number, the
token count is at least 2, and the token count is even; otherwise the first
line's tokens become the header and the remaining lines become the data
lines, and the stage fails with the header-only issue exactly when no lines
remain. -/
theorem detectHeader_classification (lines : List (List Char)) (h : lines ≠ []) :
    (detectHeader lines = .ok (none, lines) ↔
      (((lineTokens (lines.head h)).map jsNumber).all Option.isSome ∧
        2 ≤ (lineTokens (lines.head h)).length ∧
        (lineTokens (lines.head h)).length % 2 = 0)) ∧
    (¬ (((lineTokens (lines.head h)).map jsNumber).all Option.isSome ∧
        2 ≤ (lineTokens (lines.head h)).length ∧
        (lineTokens (lines.head h)).length % 2 = 0) →
      (lines.tail = [] → detectHeader lines = .error [.headerOnly]) ∧
      (lines.tail ≠ [] →
        detectHeader lines = .ok (some (lineTokens (lines.head h)), lines.tail))) := by
  cases lines with
  | nil => exact absurd rfl h
  | cons first rest =>
    simp only [List.head_cons, List.tail_cons]
    by_cases hc : ((lineTokens first).map jsNumber).all Option.isSome ∧
        2 ≤ (lineTokens first).length ∧ (lineTokens first).length % 2 = 0
    · refine ⟨?_, fun hnc => absurd hc hnc⟩
      simp only [detectHeader]
      rw [if_pos hc]
      exact ⟨fun _ => hc, fun _ => rfl⟩
    · refine ⟨?_, ?_⟩
      · simp only [detectHeader]
        rw [if_neg hc]
        apply iff_of_false
        · rw [List.tail_cons]
          by_cases hrest : rest.isEmpty = true
          · rw [if_pos hrest]
            exact fun heq => Except.noConfusion heq
          · rw [if_neg hrest]
            intro heq
            exact Option.noConfusion (congrArg Prod.fst (Except.ok.inj heq))
        · exact hc
      · intro _
        refine ⟨?_, ?_⟩
        · intro ht
          subst ht
          simp only [detectHeader]
          rw [if_neg hc, List.tail_cons]
          rfl
        · intro ht
          simp only [detectHeader]
          rw [if_neg hc, List.tail_cons]
          rw [if_neg (by simpa [List.isEmpty_iff] using ht)]

/-- Witness for C5: the single line "1 2" is classified as data. -/
theorem detectHeader_classification_witness :
    detectHeader ["1 2".toList] = .ok (none, ["1 2".toList]) :=
  (detectHeader_classification ["1 2".toList] (by decide)).1.mpr
    (by refine ⟨?_, ?_, ?_⟩ <;> decide)

/-- C6: every dataset produced by a successful full parse satisfies the
invariants: `numCols` is even and equals `2 * numPairs`, every row has
exactly `numPairs` pairs, a present header has exactly `numCols` labels, and
the row sequence is non-empty. -/
theorem dataSchema_invariants (s : List Char) (d : Data)
    (h : dataSchema s = .ok d) :
    d.numCols % 2 = 0 ∧ d.numCols = 2 * d.numPairs ∧
      (∀ r ∈ d.rows, r.length = d.numPairs) ∧
      (∀ hd, d.header = some hd → hd.length = d.numCols) ∧
      d.rows ≠ [] := by
  unfold dataSchema at h
  split at h
  · exact Except.noConfusion h
  split at h
  · exact Except.noConfusion h
  split at h
  · exact Except.noConfusion h
  rename_i pr h3
  split at h
  · exact Except.noConfusion h
  rename_i cu h4
  split at h
  · exact Except.noConfusion h
  rename_i d0 h5
  have hd0 := outputSchema_ok_inv d0 d h
  subst hd0
  obtain ⟨hpr1, haux, hne⟩ := parseDataRows_ok_inv _ _ pr h3
  obtain ⟨hcu1, hcu2, hrne, hlenall⟩ := checkUniform_ok_inv pr.1 pr.2 cu h4
  obtain ⟨hh, hrows, hnp, hnc, hev, hhl⟩ :=
    splitIntoPairs_ok_inv cu.1 cu.2.1 cu.2.2 d h5
  refine ⟨?_, ?_, ?_, ?_, ?_⟩
  · rw [hnc]
    exact hev
  · rw [hnc, hnp]
    omega
  · intro r hr
    rw [hrows] at hr
    obtain ⟨r', hr', rfl⟩ := List.mem_map.mp hr
    rw [hcu2] at hr'
    rw [pairUp_length, hlenall r' hr', hnp]
  · intro hdr hhdr
    rw [hh] at hhdr
    rw [hnc]
    exact hhl hdr hhdr
  · rw [hrows, hcu2]
    simp only [ne_eq, List.map_eq_nil_iff]
    exact hne

/-- Witness for C6: the spec's example "1 2\n3 4\n5 6" parses to a 3-row,
1-pair, 2-column dataset with no header, and the invariants hold there. -/
theorem dataSchema_invariants_witness :
    (2 : ℕ) % 2 = 0 ∧ (2 : ℕ) = 2 * 1 ∧
      (∀ r ∈ ([[((1 : ℚ), (2 : ℚ))], [(3, 4)], [(5, 6)]] :
        List (List (ℚ × ℚ))), r.length = 1) ∧
      (∀ hd, (none : Option (List (List Char))) = some hd →
        hd.length = 2) ∧
      ([[((1 : ℚ), (2 : ℚ))], [(3, 4)], [(5, 6)]] : List (List (ℚ × ℚ))) ≠ [] :=
  dataSchema_invariants "1 2\n3 4\n5 6".toList
    ⟨none, [[((1 : ℚ), (2 : ℚ))], [(3, 4)], [(5, 6)]], 1, 2⟩ rfl

/-- C8: `checkUniform` fails at the first (lowest-index) row whose length
differs from the first row's length, reporting that row's 1-based number,
the found length and the expected length; and the full pipeline on
"1 2\n3 4 5 6" fails with the non-uniform issue citing row 2, found 4,
expected 2. -/
theorem checkUniform_first_mismatch :
    (∀ (header : Option (List (List Char))) (r0 : List ℚ)
      (rest : List (List ℚ)) (j : ℕ), j < rest.length →
      (∀ m, m < j → (rest.getD m []).length = r0.length) →
      (rest.getD j []).length ≠ r0.length →
      checkUniform header (r0 :: rest) =
        .error [.nonUniform (j + 2) (rest.getD j []).length r0.length]) ∧
    dataSchema "1 2\n3 4 5 6".toList = .error [.nonUniform 2 4 2] := by
  constructor
  · intro header r0 rest j hj hpre hmis
    have hf := findNonUniform_first r0.length rest 2 j hj hpre hmis
    simp only [checkUniform, hf]
    have harith : 2 + j = j + 2 := by omega
    rw [harith]
  · rfl

/-- Witness for C8 at the rows parsed from "1 2\n3 4 5 6": the second row
(index 0 of the remainder) mismatches. -/
theorem checkUniform_first_mismatch_witness :
    checkUniform none [[(1 : ℚ), 2], [3, 4, 5, 6]] =
      .error [.nonUniform 2 4 2] :=
  checkUniform_first_mismatch.1 none [(1 : ℚ), 2] [[(3 : ℚ), 4, 5, 6]] 0
    (by decide) (fun m hm => absurd hm (by omega)) (by decide)

/-- The only issues `trimAndSplit` can report. -/
theorem trimAndSplit_error_shape (s : List Char) (e : List ParseIssue)
    (h : trimAndSplit s = .error e) :
    e = [.emptyInput] ∨ e = [.noDataRows] := by
  simp only [trimAndSplit] at h
  split at h
  · cases h
    exact Or.inl rfl
  · split at h
    · cases h
      exact Or.inr rfl
    · exact Except.noConfusion h

/-- The only issues `detectHeader` can report. -/
theorem detectHeader_error_shape (lines : List (List Char))
    (e : List ParseIssue) (h : detectHeader lines = .error e) :
    e = [.noLines] ∨ e = [.headerOnly] := by
  cases lines with
  | nil =>
    cases h
    exact Or.inl rfl
  | cons first rest =>
    simp only [detectHeader] at h
    split at h
    · exact Except.noConfusion h
    · split at h
      · cases h
        exact Or.inr rfl
      · exact Except.noConfusion h

/-- The only issues the row loop can report. -/
theorem parseDataRowsAux_error_shape :
    ∀ (ls : List (List Char)) (i : ℕ) (e : List ParseIssue),
      parseDataRowsAux i ls = .error e → ∃ a b, e = [.invalidRow a b] := by
  intro ls
  induction ls with
  | nil =>
    intro i e h
    exact Except.noConfusion h
  | cons line rest ih =>
    intro i e h
    simp only [parseDataRowsAux] at h
    split at h
    · cases hrec : parseDataRowsAux (i + 1) rest with
      | error e2 =>
        simp only [hrec] at h
        cases h
        exact ih (i + 1) e hrec
      | ok rs =>
        simp only [hrec] at h
        exact Except.noConfusion h
    · cases h
      exact ⟨i + 1, _, rfl⟩

/-- The only issues `parseDataRows` can report. -/
theorem parseDataRows_error_shape (header : Option (List (List Char)))
    (dataLines : List (List Char)) (e : List ParseIssue)
    (h : parseDataRows header dataLines = .error e) :
    (∃ a b, e = [.invalidRow a b]) ∨ e = [.noValidRows] := by
  unfold parseDataRows at h
  cases hrec : parseDataRowsAux 0 dataLines with
  | error e2 =>
    simp only [hrec] at h
    cases h
    exact Or.inl (parseDataRowsAux_error_shape dataLines 0 e hrec)
  | ok rows =>
    simp only [hrec] at h
    split at h
    · cases h
      exact Or.inr rfl
    · exact Except.noConfusion h

/-- The only issues `checkUniform` can report. -/
theorem checkUniform_error_shape (header : Option (List (List Char)))
    (rows : List (List ℚ)) (e : List ParseIssue)
    (h : checkUniform header rows = .error e) :
    e = [.crash] ∨ ∃ a b c, e = [.nonUniform a b c] := by
  cases rows with
  | nil =>
    cases h
    exact Or.inl rfl
  | cons r0 rest =>
    simp only [checkUniform] at h
    split at h
    · cases h
      exact Or.inr ⟨_, _, _, rfl⟩
    · exact Except.noConfusion h

/-- With an even column count, `splitIntoPairs` can only fail on the header
length. -/
theorem splitIntoPairs_error_even (header : Option (List (List Char)))
    (data : List (List ℚ)) (numCols : ℕ) (e : List ParseIssue)
    (hev : numCols % 2 = 0) (h : splitIntoPairs header data numCols = .error e) :
    ∃ a b, e = [.headerMismatch a b] := by
  cases header with
  | none =>
    simp only [splitIntoPairs] at h
    rw [if_neg (by omega : ¬ numCols % 2 ≠ 0)] at h
    exact Except.noConfusion h
  | some hd =>
    simp only [splitIntoPairs] at h
    split at h
    · cases h
      exact ⟨_, _, rfl⟩
    · rw [if_neg (by omega : ¬ numCols % 2 ≠ 0)] at h
      exact Except.noConfusion h

/-- The only issue `outputSchema` can report. -/
theorem outputSchema_error_shape (d : Data) (e : List ParseIssue)
    (h : outputSchema d = .error e) : e = [.invalidOutput] := by
  unfold outputSchema at h
  split at h
  · exact Except.noConfusion h
  · cases h
    rfl

/-- C9: the odd-column-count branch of `splitIntoPairs` is unreachable
through the full pipeline: every row kept by the row parser has even length,
so the first row's length (`numCols`) is even and `dataSchema` never reports
the oddColumns issue. -/
theorem oddColumns_unreachable (s : List Char) :
    ParseIssue.oddColumns ∉ issuesOf (dataSchema s) := by
  unfold dataSchema
  split
  · rename_i e h1
    rcases trimAndSplit_error_shape s e h1 with rfl | rfl <;> simp [issuesOf]
  rename_i lines h1
  split
  · rename_i e h2
    rcases detectHeader_error_shape lines e h2 with rfl | rfl <;> simp [issuesOf]
  rename_i hd h2
  split
  · rename_i e h3
    rcases parseDataRows_error_shape hd.1 hd.2 e h3 with ⟨a, b, rfl⟩ | rfl <;>
      simp [issuesOf]
  rename_i pr h3
  split
  · rename_i e h4
    rcases checkUniform_error_shape pr.1 pr.2 e h4 with rfl | ⟨a, b, c, rfl⟩ <;>
      simp [issuesOf]
  rename_i cu h4
  obtain ⟨hpr1, haux, hne⟩ := parseDataRows_ok_inv hd.1 hd.2 pr h3
  obtain ⟨hcu1, hcu2, hrne, hlenall⟩ := checkUniform_ok_inv pr.1 pr.2 cu h4
  obtain ⟨r0, hr0⟩ := List.exists_mem_of_ne_nil pr.2 hne
  have hshape := parseDataRowsAux_shape hd.2 0 pr.2 haux r0 hr0
  have hev : cu.2.2 % 2 = 0 := by
    rw [← hlenall r0 hr0]
    exact hshape.2
  split
  · rename_i e h5
    obtain ⟨a, b, rfl⟩ := splitIntoPairs_error_even cu.1 cu.2.1 cu.2.2 e hev h5
    simp [issuesOf]
  rename_i d0 h5
  cases h6 : outputSchema d0 with
  | error e =>
    rw [outputSchema_error_shape d0 e h6]
    simp [issuesOf]
  | ok d =>
    simp [issuesOf]

/-- A nonempty `dropWhile` result contains an element failing the predicate
(its head). -/
theorem dropWhile_ne_nil_exists {α : Type} (p : α → Bool) (l : List α)
    (h : l.dropWhile p ≠ []) : ∃ c ∈ l.dropWhile p, p c = false :=
  ⟨(l.dropWhile p).head h, List.head_mem h, List.head_dropWhile_not p l h⟩

/-- If trimming leaves nothing, every character was whitespace. -/
theorem trimChars_eq_nil_all_ws (s : List Char) (h : trimChars s = []) :
    ∀ c ∈ s, isWs c := by
  unfold trimChars at h
  rw [List.reverse_eq_nil_iff, List.dropWhile_eq_nil_iff] at h
  intro c hc
  rw [← List.takeWhile_append_dropWhile (p := isWs) (l := s)] at hc
  rcases List.mem_append.mp hc with h1 | h2
  · exact List.mem_takeWhile_imp h1
  · exact h c (List.mem_reverse.mpr h2)

/-- A nonempty trimmed string contains a non-whitespace character. -/
theorem trimChars_ne_nil_exists (s : List Char) (h : trimChars s ≠ []) :
    ∃ c ∈ trimChars s, isWs c = false := by
  unfold trimChars at h ⊢
  rw [ne_eq, List.reverse_eq_nil_iff] at h
  obtain ⟨c, hc, hcp⟩ := dropWhile_ne_nil_exists isWs _ h
  exact ⟨c, List.mem_reverse.mpr hc, hcp⟩

/-- `splitOnNl` always yields at least one segment. -/
theorem splitOnNl_ne_nil : ∀ (l : List Char), splitOnNl l ≠ []
  | [] => by simp [splitOnNl]
  | c :: rest => by
    simp only [splitOnNl]
    split <;> simp

/-- Every non-newline character of a string lands in some segment of its
newline split. -/
theorem mem_splitOnNl_of_mem :
    ∀ (l : List Char) (c : Char), c ∈ l → c ≠ '\n' →
      ∃ seg ∈ splitOnNl l, c ∈ seg := by
  intro l
  induction l with
  | nil => intro c hc; simp at hc
  | cons d rest ih =>
    intro c hc hnl
    rcases List.mem_cons.mp hc with rfl | hmem
    · refine ⟨c :: (splitOnNl rest).headD [], ?_, List.mem_cons_self _ _⟩
      simp only [splitOnNl]
      rw [if_neg hnl]
      exact List.mem_cons_self _ _
    · obtain ⟨seg, hseg, hcseg⟩ := ih c hmem hnl
      by_cases hd : d = '\n'
      · refine ⟨seg, ?_, hcseg⟩
        simp only [splitOnNl]
        rw [if_pos hd]
        exact List.mem_cons_of_mem _ hseg
      · cases htail : splitOnNl rest with
        | nil => exact absurd htail (splitOnNl_ne_nil rest)
        | cons t0 ts =>
          rw [htail] at hseg
          rcases List.mem_cons.mp hseg with rfl | hseg'
          · refine ⟨d :: seg, ?_, List.mem_cons_of_mem _ hcseg⟩
            simp only [splitOnNl, htail]
            rw [if_neg hd]
            simp
          · refine ⟨seg, ?_, hcseg⟩
            simp only [splitOnNl, htail]
            rw [if_neg hd]
            exact List.mem_cons_of_mem _ hseg'

/-- C10: the second failure branch of `trimAndSplit` is unreachable: whenever
the trimmed content is non-empty, splitting on newlines and discarding the
lines that are blank after trimming always leaves at least one line, so the
noDataRows issue of `trimAndSplit` can never be raised. -/
theorem noDataRows_unreachable (s : List Char) :
    ParseIssue.noDataRows ∉ issuesOf (trimAndSplit s) := by
  simp only [trimAndSplit]
  by_cases h1 : (trimChars s).isEmpty = true
  · rw [if_pos h1]
    simp [issuesOf]
  · rw [if_neg h1]
    have hne : trimChars s ≠ [] := by simpa [List.isEmpty_iff] using h1
    obtain ⟨c, hc, hcw⟩ := trimChars_ne_nil_exists s hne
    have hcnl : c ≠ '\n' := by
      intro heq
      rw [heq] at hcw
      exact Bool.noConfusion hcw
    obtain ⟨seg, hseg, hcseg⟩ := mem_splitOnNl_of_mem (trimChars s) c hc hcnl
    have hsegne : ¬ ((trimChars seg).isEmpty = true) := by
      rw [List.isEmpty_iff]
      intro hnil
      have hw := trimChars_eq_nil_all_ws seg hnil c hcseg
      rw [hcw] at hw
      exact Bool.noConfusion hw
    have hmem : seg ∈
        (splitOnNl (trimChars s)).filter (fun l => !(trimChars l).isEmpty) := by
      rw [List.mem_filter]
      refine ⟨hseg, ?_⟩
      cases hie : (trimChars seg).isEmpty
      · rfl
      · exact absurd hie hsegne
    have hfil : ¬ ((((splitOnNl (trimChars s)).filter
        (fun l => !(trimChars l).isEmpty)).isEmpty) = true) := by
      rw [List.isEmpty_iff]
      intro hnil
      rw [hnil] at hmem
      simp at hmem
    rw [if_neg hfil]
    simp [issuesOf]

/-- Witness for C9 at "1 2 3\n4 5 6": the odd-width input is rejected by the
row parser, not by the pairing stage. -/
theorem oddColumns_unreachable_witness :
    ParseIssue.oddColumns ∉ issuesOf (dataSchema "1 2 3\n4 5 6".toList) :=
  oddColumns_unreachable "1 2 3\n4 5 6".toList

/-- Witness for C10 at an all-whitespace input: even there `trimAndSplit`
reports the empty-input issue, never the noDataRows issue. -/
theorem noDataRows_unreachable_witness :
    ParseIssue.noDataRows ∉ issuesOf (trimAndSplit " \n \n ".toList) :=
  noDataRows_unreachable " \n \n ".toList

end Spectrum
